import Mathlib

/-!
# Verification of the 8-puzzle A* solver (`src/original-code/A-Star Search.cpp`)

Shallow embedding of the C++ program.  The C++ stores a 3×3 grid
`a[i][j]` of values 0–8; we flatten it row-major, so `a[i][j]` is index
`3*i+j` of a `List Nat` of length 9.  The global `fringe`/`closed` lists
(`std::list<AStar>`) become `List Node`; the raw parent pointer
`&closed.back()` becomes the index of that element in the closed list.
The build enables `MISPLACED_TILES`; the alternative `MANHATTAN` block is
also embedded since the spec treats the heuristic as configurable.
-/

namespace AStarPuzzle

/-- A grid is the row-major flattening of the C++ `int a[3][3]`. -/
abbrev Grid := List Nat

/-- Cell access `a[i][j]` at flat position `p = 3*i+j`. -/
def cell (g : Grid) (p : Nat) : Nat := g.getD p 0

/-- Row distance plus column distance between flat positions, the
`abs(i-k)+abs(j-l)` of the C++ Manhattan block. -/
def manhPos (p q : Nat) : Nat :=
  (max (p / 3) (q / 3) - min (p / 3) (q / 3)) +
    (max (p % 3) (q % 3) - min (p % 3) (q % 3))

/-- Sum of `f` over the nine cell positions (the doubly nested
`for i < 3, for j < 3` loops of the C++). -/
def sum9 (f : Nat → Nat) : Nat := ∑ p in Finset.range 9, f p

/-- Misplaced-tiles heuristic (`MISPLACED_TILES` block of
`AStar::getHeuristic`): counts every cell, the blank included, whose
value differs from the goal's value at that cell. -/
def misplacedH (a goal : Grid) : Nat :=
  sum9 (fun p => if cell a p ≠ cell goal p then 1 else 0)

/-- First goal position holding value `v`: the row-major scan with early
`break` of the C++ `MANHATTAN` block. -/
def goalFind (goal : Grid) (v : Nat) : Option Nat :=
  (List.range 9).find? (fun gp => cell goal gp == v)

/-- Manhattan heuristic (`MANHATTAN` block of `AStar::getHeuristic`):
for every cell, the blank included, the grid distance between its
position and the first goal cell holding the same value; values absent
from the goal contribute nothing. -/
def manhattanH (a goal : Grid) : Nat :=
  sum9 (fun p =>
    match goalFind goal (cell a p) with
    | some gp => manhPos p gp
    | none => 0)

/-- Compile-time heuristic selection (the `#define` pair in the C++;
the shipped build defines `MISPLACED_TILES`). -/
inductive Heur where
  | misplaced
  | manhattan
deriving DecidableEq, Repr

def evalH : Heur → Grid → Grid → Nat
  | .misplaced, a, goal => misplacedH a goal
  | .manhattan, a, goal => manhattanH a goal

/-- `std::swap(a[p], a[q])` on the flattened grid. -/
def swapCells (a : Grid) (p q : Nat) : Grid :=
  (a.set p (cell a q)).set q (cell a p)

/-- The in-bounds slide moves tried by `AStar::getSuccessors` from blank
position `p`, in the C++ order up, down, left, right. -/
def slideCandidates (a : Grid) (p : Nat) : List Grid :=
  (if 3 ≤ p then [swapCells a p (p - 3)] else []) ++
    (if p < 6 then [swapCells a p (p + 3)] else []) ++
      (if p % 3 ≠ 0 then [swapCells a p (p - 1)] else []) ++
        (if p % 3 < 2 then [swapCells a p (p + 1)] else [])

/-- Positions holding a 0, in row-major order (the `a[i][j] == 0` scan). -/
def blanks (a : Grid) : List Nat :=
  (List.range 9).filter (fun p => cell a p == 0)

/-- All child grids produced by one call of `AStar::getSuccessors`,
in generation order. -/
def successorGrids (a : Grid) : List Grid :=
  (blanks a).flatMap (slideCandidates a)

/-- A search node: the state grid plus `g`, `h`, `f = g + h` and the
parent back-reference (`parent` pointer, embedded as an index into the
closed list, `none` for the start node). -/
structure Node where
  a : Grid
  g : Nat
  h : Nat
  f : Nat
  parent : Option Nat
deriving DecidableEq, Repr

/-- The mutable globals of the C++: `fringe`, `closed`, `nodesGenerated`. -/
structure SState where
  fringe : List Node
  closed : List Node
  gen : Nat
deriving DecidableEq, Repr

/-- `AStar::isExplored`: is some closed node's grid equal to `c`
(`operator==` compares only the grids)? -/
def isExplored (closed : List Node) (c : Grid) : Bool :=
  closed.any (fun n => n.a == c)

/-- `AStar::setChildState`: count the generated node and, unless its
state is already explored, score it (`g` one more than the current
node's `g`, `h` from the heuristic, `f = g + h`) and push it onto the
fringe.  Returns `false` unconditionally, like the C++. -/
def setChildState (hs : Heur) (goal : Grid) (curG pidx : Nat) (st : SState)
    (c : Grid) : SState × Bool :=
  let st := { st with gen := st.gen + 1 }
  if isExplored st.closed c then (st, false)
  else
    let g := curG + 1
    let h := evalH hs c goal
    ({ st with fringe := st.fringe ++ [⟨c, g, h, g + h, some pidx⟩] }, false)

/-- `AStar::getSuccessors`: push the current node onto `closed`, generate
every child (the loop `break`s as soon as `setChildState` reports the
goal), then remove from the fringe every node whose state equals the
current node's state (`fringe.remove(currentNode)` with grid equality). -/
def getSuccessors (hs : Heur) (goal : Grid) (st : SState) (cur : Node) :
    SState × Bool :=
  let closed' := st.closed ++ [cur]
  let pidx := closed'.length - 1
  let step := (successorGrids cur.a).foldl
    (fun (acc : SState × Bool) c =>
      if acc.2 then acc
      else setChildState hs goal cur.g pidx acc.1 c)
    ({ st with closed := closed' }, false)
  ({ step.1 with fringe := step.1.fringe.filter (fun n => !(n.a == cur.a)) },
    step.2)

/-- The fringe scan of `AStar::solve`: start from `fringe.front()` and
replace the tentative best whenever `*it < currentNode`, where
`operator<` is `this->f <= cur.f`. -/
def selectCurrent (x : Node) (l : List Node) : Node :=
  l.foldl (fun c n => if n.f ≤ c.f then n else c) x

/-- `AStar::isGoal`: cell-wise comparison of the grid with the goal. -/
def isGoal (a goal : Grid) : Bool :=
  (List.range 9).all (fun p => cell a p == cell goal p)

/-- `AStar::printPath`: follow `parent` references, emitting parents
first, so the result runs from the start state to this node's state.
The C++ recursion terminates because parent pointers go strictly down
the closed list; the embedding makes that explicit with fuel. -/
def pathTo (cl : List Node) : Nat → Node → List Grid
  | 0, n => [n.a]
  | fuel + 1, n =>
    match n.parent with
    | none => [n.a]
    | some p =>
      match cl[p]? with
      | none => [n.a]
      | some pn => pathTo cl fuel pn ++ [n.a]

/-- Result of a run.  The C++ `solve` either prints a path and the two
counters (`success`), or `break`s out of the loop when `getSuccessors`
reports the goal (`brokeNoPath`), or — on an unsolvable instance —
calls `fringe.front()` on an empty list, which is undefined behaviour
(`ubEmptyFringe`).  `failed` and `invalidInput` are the outcomes the
spec demands for unsolvable and malformed inputs; they are present so
that theorems can state whether the program ever produces them. -/
inductive Outcome where
  | success (path : List Grid) (gen expanded : Nat)
  | brokeNoPath (gen : Nat)
  | ubEmptyFringe
  | failed
  | invalidInput
  | outOfFuel
deriving DecidableEq, Repr

/-- The `while (true)` loop of `AStar::solve`, with fuel.  Each round
scans the fringe for the node with least `f`, tests it against the goal
(success sets `nodesExpanded = closed.size()` and reconstructs the
path), otherwise expands it. -/
def solveLoop (hs : Heur) (goal : Grid) : Nat → SState → Outcome
  | 0, _ => .outOfFuel
  | fuel + 1, st =>
    match st.fringe with
    | [] => .ubEmptyFringe
    | x :: _ =>
      let cur := selectCurrent x st.fringe
      if isGoal cur.a goal then
        .success (pathTo st.closed (st.closed.length + 1) cur) st.gen
          st.closed.length
      else
        let step := getSuccessors hs goal st cur
        if step.2 then .brokeNoPath step.1.gen
        else solveLoop hs goal fuel step.1

/-- The start node built by `main`: `g = 0`, `h` from the heuristic,
`f = g + h`, no parent. -/
def initNode (hs : Heur) (s goal : Grid) : Node :=
  let h := evalH hs s goal
  ⟨s, 0, h, h, none⟩

/-- A whole run: `main` builds the start node and calls `solve`, which
seeds the fringe with it; counters start at zero. -/
def runAStar (hs : Heur) (s goal : Grid) (fuel : Nat) : Outcome :=
  solveLoop hs goal fuel ⟨[initNode hs s goal], [], 0⟩

/-- A grid is valid when it holds each of 0–8 exactly once. -/
def validGrid (g : Grid) : Bool :=
  g.length == 9 && (List.range 9).all (fun v => g.count v == 1)

/-- Exact-length reachability: `pathLenB n s t` holds when some sequence
of exactly `n` single-tile slides transforms `s` into `t`. -/
def pathLenB : Nat → Grid → Grid → Bool
  | 0, s, t => s == t
  | n + 1, s, t => (successorGrids s).any (fun u => pathLenB n u t)

/-- `n` is the minimal number of slides from `s` to `t`. -/
def IsDist (s t : Grid) (n : Nat) : Prop :=
  pathLenB n s t = true ∧ ∀ m, pathLenB m s t = true → n ≤ m

/-- No state on the fringe also sits in the closed list (states are
compared the way the C++ `operator==` does, by grid). -/
def FringeClosedDisjoint (st : SState) : Prop :=
  ∀ n ∈ st.fringe, ∀ m ∈ st.closed, n.a ≠ m.a

/-- Well-formedness of one node against the closed list: either it is
the start node (no parent, start grid, `g = 0`) or its parent reference
points strictly below `bound` into the closed list, its grid is one
slide from the parent's grid and its `g` is the parent's plus one. -/
def NodeOK (start : Grid) (cl : List Node) (bound : Nat) (n : Node) : Prop :=
  (n.parent = none ∧ n.a = start ∧ n.g = 0) ∨
    ∃ p pn, n.parent = some p ∧ p < bound ∧ cl[p]? = some pn ∧
      n.a ∈ successorGrids pn.a ∧ n.g = pn.g + 1

/-- Every parent reference in the state is well formed: a closed node's
parent sits strictly earlier in the closed list, a fringe node's parent
is any closed node. -/
def ParentsOK (start : Grid) (st : SState) : Prop :=
  (∀ k pn, st.closed[k]? = some pn → NodeOK start st.closed k pn) ∧
    ∀ n ∈ st.fringe, NodeOK start st.closed st.closed.length n

/-- All grids in the state have the 3×3 shape. -/
def ShapesOK (st : SState) : Prop :=
  (∀ n ∈ st.fringe, n.a.length = 9) ∧ ∀ n ∈ st.closed, n.a.length = 9


/-- The blank positions `p`, `q` of a legal slide: `q` is the in-bounds
up/down/left/right neighbour of `p`. -/
def AdjPos (p q : Nat) : Prop :=
  p < 9 ∧ ((3 ≤ p ∧ q = p - 3) ∨ (p < 6 ∧ q = p + 3) ∨
    (p % 3 ≠ 0 ∧ q = p - 1) ∨ (p % 3 < 2 ∧ q = p + 1))

/-- The grid has the right shape and a unique blank: length 9 and
exactly one cell holding 0. -/
def OneBlank (g : Grid) : Prop :=
  g.length = 9 ∧ ∃ p, blanks g = [p]

/-- Checkerboard colour of the blank's cell; it flips on every slide,
which forces all slide sequences between two fixed grids to have the
same parity of length. -/
def blankColor (g : Grid) : Nat :=
  ((blanks g).headD 0 / 3 + (blanks g).headD 0 % 3) % 2

/-- The optimality invariant of the shipped (misplaced-tiles) search:
every node carries a one-blank grid actually reachable from the start
in exactly `g` slides with `h` and `f` as computed; every closed node
was expanded with minimal `g` and is not the goal; fringe and closed
are disjoint; whenever an unclosed state `z` has an optimal predecessor
among the closed nodes, the fringe holds an entry for `z` with minimal
`g`; and the start state is closed or on the fringe with `g = 0`. -/
def AInv (start goal : Grid) (st : SState) : Prop :=
  (∀ n ∈ st.fringe ++ st.closed, OneBlank n.a ∧
      pathLenB n.g start n.a = true ∧ n.h = misplacedH n.a goal ∧
      n.f = n.g + n.h) ∧
    (∀ n ∈ st.closed, IsDist start n.a n.g ∧ isGoal n.a goal = false) ∧
    FringeClosedDisjoint st ∧
    (∀ z w n, w ∈ st.closed → z ∈ successorGrids w.a →
      (∀ m ∈ st.closed, m.a ≠ z) → IsDist start w.a n →
      IsDist start z (n + 1) →
      ∃ mm ∈ st.fringe, mm.a = z ∧ mm.g = n + 1) ∧
    ((∃ m ∈ st.closed, m.a = start) ∨
      ∃ mm ∈ st.fringe, mm.a = start ∧ mm.g = 0)

/-- The node `setChildState` pushes for a fresh child grid `c`. -/
def mkChild (hs : Heur) (goal : Grid) (curG pidx : Nat) (c : Grid) : Node :=
  ⟨c, curG + 1, evalH hs c goal, curG + 1 + evalH hs c goal, some pidx⟩

/-- The nodes pushed onto the fringe while expanding: one per candidate
child grid not already explored. -/
def pushChildren (hs : Heur) (goal : Grid) (curG pidx : Nat)
    (closed : List Node) (cs : List Grid) : List Node :=
  cs.filterMap (fun c =>
    if isExplored closed c then none
    else some (mkChild hs goal curG pidx c))

/-- Per-cell contribution of the blank-free misplaced count. -/
def mTerm (a goal : Grid) (r : Nat) : Nat :=
  if cell a r ≠ 0 ∧ cell a r ≠ cell goal r then 1 else 0

/-- Per-cell contribution of the blank-free Manhattan sum. -/
def mhTerm (a goal : Grid) (r : Nat) : Nat :=
  if cell a r = 0 then 0
  else
    match goalFind goal (cell a r) with
    | some gp => manhPos r gp
    | none => 0

/-- Misplaced-tiles heuristic restricted to the eight real tiles (the
blank cell not counted).  Not part of the C++; admissibility and
consistency hold for this variant and are compared with the
blank-counting `misplacedH` the code computes. -/
def misplacedNoBlank (a goal : Grid) : Nat := sum9 (mTerm a goal)

/-- Manhattan heuristic restricted to the eight real tiles (the blank
cell not counted).  Not part of the C++; the admissible, consistent
variant compared with the blank-counting `manhattanH`. -/
def manhattanNoBlank (a goal : Grid) : Nat := sum9 (mhTerm a goal)

end AStarPuzzle

namespace AStarPuzzle

/-! ## Basic list and grid lemmas -/

theorem getD_set_self {l : List Nat} {p : Nat} (hp : p < l.length)
    (v d : Nat) : (l.set p v).getD p d = v := by
  induction l generalizing p with
  | nil => simp at hp
  | cons x xs ih =>
    cases p with
    | zero => rfl
    | succ q =>
      simp only [List.set_cons_succ, List.getD_cons_succ]
      exact ih (by simpa using hp)

theorem getD_set_ne' (l : List Nat) : ∀ p q, p ≠ q → ∀ v d,
    (l.set p v).getD q d = l.getD q d := by
  induction l with
  | nil => intro p q _ v d; rfl
  | cons x xs ih =>
    intro p q h v d
    cases p with
    | zero =>
      cases q with
      | zero => exact absurd rfl h
      | succ q' => rfl
    | succ p' =>
      cases q with
      | zero => rfl
      | succ q' =>
        simp only [List.set_cons_succ, List.getD_cons_succ]
        exact ih p' q' (fun e => h (by omega)) v d

theorem getD_set_ne {l : List Nat} {p q : Nat} (h : p ≠ q) (v d : Nat) :
    (l.set p v).getD q d = l.getD q d :=
  getD_set_ne' l p q h v d

theorem length_swapCells (a : Grid) (p q : Nat) :
    (swapCells a p q).length = a.length := by
  simp [swapCells]

theorem cell_swap_fst {a : Grid} {p q : Nat} (hp : p < a.length)
    (hne : p ≠ q) : cell (swapCells a p q) p = cell a q := by
  unfold swapCells cell
  rw [getD_set_ne (fun e => hne e.symm), getD_set_self hp]

theorem cell_swap_snd {a : Grid} {p q : Nat} (hq : q < a.length) :
    cell (swapCells a p q) q = cell a p := by
  unfold swapCells cell
  rw [getD_set_self (by simpa using hq)]

theorem cell_swap_other {a : Grid} {p q r : Nat} (h1 : r ≠ p) (h2 : r ≠ q) :
    cell (swapCells a p q) r = cell a r := by
  unfold swapCells cell
  rw [getD_set_ne (fun e => h2 e.symm), getD_set_ne (fun e => h1 e.symm)]

theorem adjPos_bounds {p q : Nat} (h : AdjPos p q) :
    p < 9 ∧ q < 9 ∧ p ≠ q := by
  obtain ⟨hp, hc⟩ := h
  rcases hc with ⟨h1, rfl⟩ | ⟨h1, rfl⟩ | ⟨h1, rfl⟩ | ⟨h1, rfl⟩ <;> omega

theorem mem_blanks {a : Grid} {p : Nat} :
    p ∈ blanks a ↔ p < 9 ∧ cell a p = 0 := by
  simp [blanks, List.mem_filter]

theorem mem_ite_singleton {α : Type _} {c : Prop} [Decidable c] {x t : α}
    (h : t ∈ if c then [x] else ([] : List α)) : c ∧ t = x := by
  by_cases hc : c
  · rw [if_pos hc] at h
    exact ⟨hc, List.mem_singleton.1 h⟩
  · rw [if_neg hc] at h
    simp at h

theorem successorGrids_elim {a t : Grid} (h : t ∈ successorGrids a) :
    ∃ p q, cell a p = 0 ∧ AdjPos p q ∧ t = swapCells a p q := by
  simp only [successorGrids, List.mem_flatMap] at h
  obtain ⟨p, hpb, ht⟩ := h
  rw [mem_blanks] at hpb
  obtain ⟨hp9, hp0⟩ := hpb
  unfold slideCandidates at ht
  rcases List.mem_append.1 ht with ht | ht4
  rotate_left
  · obtain ⟨h1, rfl⟩ := mem_ite_singleton ht4
    exact ⟨p, p + 1, hp0, ⟨hp9, Or.inr (Or.inr (Or.inr ⟨h1, rfl⟩))⟩, rfl⟩
  rcases List.mem_append.1 ht with ht | ht3
  rotate_left
  · obtain ⟨h1, rfl⟩ := mem_ite_singleton ht3
    exact ⟨p, p - 1, hp0, ⟨hp9, Or.inr (Or.inr (Or.inl ⟨h1, rfl⟩))⟩, rfl⟩
  rcases List.mem_append.1 ht with ht1 | ht2
  · obtain ⟨h1, rfl⟩ := mem_ite_singleton ht1
    exact ⟨p, p - 3, hp0, ⟨hp9, Or.inl ⟨h1, rfl⟩⟩, rfl⟩
  · obtain ⟨h1, rfl⟩ := mem_ite_singleton ht2
    exact ⟨p, p + 3, hp0, ⟨hp9, Or.inr (Or.inl ⟨h1, rfl⟩)⟩, rfl⟩

theorem successorGrids_intro {a : Grid} {p q : Nat} (hp0 : cell a p = 0)
    (hadj : AdjPos p q) : swapCells a p q ∈ successorGrids a := by
  obtain ⟨hp9, hc⟩ := hadj
  simp only [successorGrids, List.mem_flatMap]
  refine ⟨p, mem_blanks.2 ⟨hp9, hp0⟩, ?_⟩
  unfold slideCandidates
  rcases hc with ⟨h1, rfl⟩ | ⟨h1, rfl⟩ | ⟨h1, rfl⟩ | ⟨h1, rfl⟩
  · refine List.mem_append.2 (Or.inl (List.mem_append.2 (Or.inl
      (List.mem_append.2 (Or.inl ?_)))))
    rw [if_pos h1]
    exact List.mem_singleton.2 rfl
  · refine List.mem_append.2 (Or.inl (List.mem_append.2 (Or.inl
      (List.mem_append.2 (Or.inr ?_)))))
    rw [if_pos h1]
    exact List.mem_singleton.2 rfl
  · refine List.mem_append.2 (Or.inl (List.mem_append.2 (Or.inr ?_)))
    rw [if_pos h1]
    exact List.mem_singleton.2 rfl
  · refine List.mem_append.2 (Or.inr ?_)
    rw [if_pos h1]
    exact List.mem_singleton.2 rfl

/-! ## Exact-length reachability -/

theorem pathLenB_zero {s t : Grid} : pathLenB 0 s t = true ↔ s = t := by
  simp [pathLenB]

theorem pathLenB_succ {n : Nat} {s t : Grid} :
    pathLenB (n + 1) s t = true ↔
      ∃ u ∈ successorGrids s, pathLenB n u t = true := by
  simp [pathLenB, List.any_eq_true]

theorem pathLenB_snoc {n : Nat} {s t u : Grid} (h : pathLenB n s t = true)
    (hu : u ∈ successorGrids t) : pathLenB (n + 1) s u = true := by
  induction n generalizing s with
  | zero =>
    rw [pathLenB_zero] at h
    subst h
    exact pathLenB_succ.2 ⟨u, hu, pathLenB_zero.2 rfl⟩
  | succ n ih =>
    obtain ⟨w, hw, hp⟩ := pathLenB_succ.1 h
    exact pathLenB_succ.2 ⟨w, hw, ih hp⟩

theorem pathLenB_unsnoc {n : Nat} {s t : Grid}
    (h : pathLenB (n + 1) s t = true) :
    ∃ w, pathLenB n s w = true ∧ t ∈ successorGrids w := by
  induction n generalizing s with
  | zero =>
    obtain ⟨u, hu, h0⟩ := pathLenB_succ.1 h
    rw [pathLenB_zero] at h0
    subst h0
    exact ⟨s, pathLenB_zero.2 rfl, hu⟩
  | succ n ih =>
    obtain ⟨u, hu, hp⟩ := pathLenB_succ.1 h
    obtain ⟨w, hw, hmem⟩ := ih hp
    exact ⟨w, pathLenB_succ.2 ⟨u, hu, hw⟩, hmem⟩

/-! ## Sum surgery over the nine cells -/

theorem sum9_congr_two (f g : Nat → Nat) (i q : Nat) (hi : i < 9)
    (hq : q < 9) (hne : i ≠ q)
    (hcomm : ∀ p, p < 9 → p ≠ i → p ≠ q → f p = g p) :
    sum9 f + g i + g q = sum9 g + f i + f q := by
  have hiM : i ∈ Finset.range 9 := Finset.mem_range.2 hi
  have hqM : q ∈ (Finset.range 9).erase i :=
    Finset.mem_erase.2 ⟨fun e => hne e.symm, Finset.mem_range.2 hq⟩
  have hf : sum9 f =
      f i + (f q + ∑ p in ((Finset.range 9).erase i).erase q, f p) := by
    rw [sum9, ← Finset.add_sum_erase _ f hiM, ← Finset.add_sum_erase _ f hqM]
  have hg : sum9 g =
      g i + (g q + ∑ p in ((Finset.range 9).erase i).erase q, g p) := by
    rw [sum9, ← Finset.add_sum_erase _ g hiM, ← Finset.add_sum_erase _ g hqM]
  have hc : ∑ p in ((Finset.range 9).erase i).erase q, f p =
      ∑ p in ((Finset.range 9).erase i).erase q, g p := by
    refine Finset.sum_congr rfl ?_
    intro p hp
    have h1 := Finset.mem_erase.1 hp
    have h2 := Finset.mem_erase.1 h1.2
    exact hcomm p (Finset.mem_range.1 h2.2) h2.1 h1.1
  omega

theorem sum9_le_sum9 {f g : Nat → Nat} (h : ∀ p, p < 9 → f p ≤ g p) :
    sum9 f ≤ sum9 g := by
  refine Finset.sum_le_sum ?_
  intro p hp
  exact h p (Finset.mem_range.1 hp)

theorem sum9_indicator {b : Nat} (hb : b < 9) :
    sum9 (fun r => if r = b then 1 else 0) = 1 := by
  rw [sum9, Finset.sum_ite_eq' (Finset.range 9) b (fun _ => 1),
    if_pos (Finset.mem_range.2 hb)]

/-! ## Heuristic step lemmas -/

theorem manhPos_adj {p q gp : Nat} (hadj : AdjPos p q) :
    manhPos q gp ≤ manhPos p gp + 1 ∧ manhPos p gp ≤ manhPos q gp + 1 := by
  obtain ⟨hp9, hc⟩ := hadj
  unfold manhPos
  rcases hc with ⟨h1, rfl⟩ | ⟨h1, rfl⟩ | ⟨h1, rfl⟩ | ⟨h1, rfl⟩ <;> omega

theorem misplacedNB_step {s g : Grid} {p q : Nat} (hlen : s.length = 9)
    (hp0 : cell s p = 0) (hadj : AdjPos p q) :
    misplacedNoBlank s g ≤ misplacedNoBlank (swapCells s p q) g + 1 ∧
      misplacedNoBlank (swapCells s p q) g ≤ misplacedNoBlank s g + 1 := by
  obtain ⟨hp9, hq9, hne⟩ := adjPos_bounds hadj
  have hcp : cell (swapCells s p q) p = cell s q :=
    cell_swap_fst (by omega) hne
  have hcq : cell (swapCells s p q) q = cell s p :=
    cell_swap_snd (by omega)
  have key := sum9_congr_two (mTerm s g) (mTerm (swapCells s p q) g) p q hp9
    hq9 hne (fun r hr hrp hrq => by
      unfold mTerm
      rw [cell_swap_other hrp hrq])
  have e1 : mTerm s g p = 0 := by simp [mTerm, hp0]
  have e2 : mTerm (swapCells s p q) g q = 0 := by
    unfold mTerm
    rw [hcq]
    simp [hp0]
  have b1 : mTerm (swapCells s p q) g p ≤ 1 := by
    unfold mTerm
    split <;> omega
  have b2 : mTerm s g q ≤ 1 := by
    unfold mTerm
    split <;> omega
  unfold misplacedNoBlank
  omega

theorem manhattanNB_step {s g : Grid} {p q : Nat} (hlen : s.length = 9)
    (hp0 : cell s p = 0) (hadj : AdjPos p q) :
    manhattanNoBlank s g ≤ manhattanNoBlank (swapCells s p q) g + 1 ∧
      manhattanNoBlank (swapCells s p q) g ≤ manhattanNoBlank s g + 1 := by
  obtain ⟨hp9, hq9, hne⟩ := adjPos_bounds hadj
  have hcp : cell (swapCells s p q) p = cell s q :=
    cell_swap_fst (by omega) hne
  have hcq : cell (swapCells s p q) q = cell s p :=
    cell_swap_snd (by omega)
  have key := sum9_congr_two (mhTerm s g) (mhTerm (swapCells s p q) g) p q
    hp9 hq9 hne (fun r hr hrp hrq => by
      unfold mhTerm
      rw [cell_swap_other hrp hrq])
  have e1 : mhTerm s g p = 0 := by simp [mhTerm, hp0]
  have e2 : mhTerm (swapCells s p q) g q = 0 := by
    unfold mhTerm
    rw [hcq]
    simp [hp0]
  have hrel : mTerm s g q = mTerm s g q := rfl
  have hpair : mhTerm s g q ≤ mhTerm (swapCells s p q) g p + 1 ∧
      mhTerm (swapCells s p q) g p ≤ mhTerm s g q + 1 := by
    unfold mhTerm
    rw [hcp]
    by_cases hz : cell s q = 0
    · simp [hz]
    · rw [if_neg hz, if_neg hz]
      rcases hgf : goalFind g (cell s q) with _ | gp
      · show (0 : Nat) ≤ 0 + 1 ∧ (0 : Nat) ≤ 0 + 1
        exact ⟨by omega, by omega⟩
      · show manhPos q gp ≤ manhPos p gp + 1 ∧ manhPos p gp ≤ manhPos q gp + 1
        exact ⟨(manhPos_adj hadj).1, (manhPos_adj hadj).2⟩
  unfold manhattanNoBlank
  omega

/-! ## Blank tracking and parity -/

theorem blanks_swap {s : Grid} {p q : Nat} (hlen : s.length = 9)
    (hb : blanks s = [p]) (hadj : AdjPos p q) :
    blanks (swapCells s p q) = [q] := by
  obtain ⟨hp9, hq9, hne⟩ := adjPos_bounds hadj
  have hmem : ∀ r, r ∈ blanks s ↔ r = p := by
    rw [hb]
    intro r
    exact List.mem_singleton
  have hp0 : cell s p = 0 := (mem_blanks.1 ((hmem p).2 rfl)).2
  have hq0 : cell s q ≠ 0 := fun h0 =>
    hne ((hmem q).1 (mem_blanks.2 ⟨hq9, h0⟩)).symm
  have hcells : ∀ r, r < 9 →
      ((cell (swapCells s p q) r == 0) = (r == q)) := by
    intro r hr
    by_cases hrq : r = q
    · subst hrq
      rw [cell_swap_snd (by omega), hp0]
      simp
    · by_cases hrp : r = p
      · subst hrp
        rw [cell_swap_fst (by omega) hne]
        simp [hq0, hrq]
      · rw [cell_swap_other hrp hrq]
        have hr0 : cell s r ≠ 0 := fun h0 =>
          hrp ((hmem r).1 (mem_blanks.2 ⟨hr, h0⟩))
        simp [hr0, hrq]
  unfold blanks
  rw [List.filter_congr (fun r hr => hcells r (List.mem_range.1 hr))]
  have : ∀ b : Nat, b < 9 →
      (List.range 9).filter (fun r => r == b) = [b] := by
    intro b hb
    interval_cases b <;> decide
  exact this q hq9

theorem oneBlank_succ {s t : Grid} (hs : OneBlank s)
    (ht : t ∈ successorGrids s) :
    OneBlank t ∧ blankColor t ≠ blankColor s := by
  obtain ⟨hlen, b, hb⟩ := hs
  obtain ⟨p, q, hp0, hadj, rfl⟩ := successorGrids_elim ht
  obtain ⟨hp9, hq9, hne⟩ := adjPos_bounds hadj
  have hpb : p = b := by
    have : p ∈ blanks s := mem_blanks.2 ⟨hp9, hp0⟩
    rw [hb] at this
    exact List.mem_singleton.1 this
  subst hpb
  have hswap := blanks_swap hlen hb hadj
  refine ⟨⟨by rw [length_swapCells]; exact hlen, q, hswap⟩, ?_⟩
  unfold blankColor
  rw [hswap, hb]
  simp only [List.headD_cons]
  obtain ⟨_, hc⟩ := hadj
  rcases hc with ⟨h1, rfl⟩ | ⟨h1, rfl⟩ | ⟨h1, rfl⟩ | ⟨h1, rfl⟩ <;> omega

theorem pathLenB_parity {n : Nat} {s t : Grid} (hs : OneBlank s)
    (h : pathLenB n s t = true) :
    (n + blankColor s + blankColor t) % 2 = 0 := by
  induction n generalizing s with
  | zero =>
    rw [pathLenB_zero] at h
    subst h
    omega
  | succ n ih =>
    obtain ⟨u, hu, hp⟩ := pathLenB_succ.1 h
    obtain ⟨hub, hcol⟩ := oneBlank_succ hs hu
    have hih := ih hub hp
    have h1 : blankColor s < 2 := Nat.mod_lt _ (by omega)
    have h2 : blankColor u < 2 := Nat.mod_lt _ (by omega)
    omega

theorem pathLenB_same_parity {m n : Nat} {s t : Grid} (hs : OneBlank s)
    (h1 : pathLenB m s t = true) (h2 : pathLenB n s t = true) :
    m % 2 = n % 2 := by
  have hm := pathLenB_parity hs h1
  have hn := pathLenB_parity hs h2
  omega

theorem oneBlank_path {n : Nat} {s t : Grid} (hs : OneBlank s)
    (h : pathLenB n s t = true) : OneBlank t := by
  induction n generalizing s with
  | zero =>
    rw [pathLenB_zero] at h
    subst h
    exact hs
  | succ n ih =>
    obtain ⟨u, hu, hp⟩ := pathLenB_succ.1 h
    exact ih (oneBlank_succ hs hu).1 hp

/-! ## Valid grids -/

theorem getD_mem (l : List Nat) : ∀ r, r < l.length → l.getD r 0 ∈ l := by
  induction l with
  | nil =>
    intro r hr
    simp at hr
  | cons x xs ih =>
    intro r hr
    cases r with
    | zero => exact List.mem_cons_self x xs
    | succ r' => exact List.mem_cons_of_mem x (ih r' (by simpa using hr))

theorem mem_getD {l : List Nat} {v : Nat} (h : v ∈ l) :
    ∃ r, r < l.length ∧ l.getD r 0 = v := by
  induction l with
  | nil => simp at h
  | cons x xs ih =>
    rcases List.mem_cons.1 h with rfl | hxs
    · exact ⟨0, by simp, rfl⟩
    · obtain ⟨r, hr, hv⟩ := ih hxs
      exact ⟨r + 1, by simpa using hr, hv⟩

theorem two_le_count_of_getD {l : List Nat} {v : Nat} :
    ∀ i j, i < j → j < l.length → l.getD i 0 = v → l.getD j 0 = v →
      2 ≤ l.count v := by
  induction l with
  | nil =>
    intro i j _ hj
    simp at hj
  | cons x xs ih =>
    intro i j hij hj hi hjv
    cases i with
    | zero =>
      cases j with
      | zero => omega
      | succ j' =>
        have hx : x = v := hi
        have hmem : v ∈ xs := by
          have hjl : j' < xs.length := by simpa using hj
          have hv : xs.getD j' 0 = v := hjv
          exact hv ▸ getD_mem xs j' hjl
        subst hx
        rw [List.count_cons_self]
        have := List.count_pos_iff.2 hmem
        omega
    | succ i' =>
      cases j with
      | zero => omega
      | succ j' =>
        have := ih i' j' (by omega) (by simpa using hj) hi hjv
        rcases Nat.decEq x v with _ | _
        all_goals
          rw [List.count_cons]
          omega

theorem validGrid_counts {g : Grid} (h : validGrid g = true) :
    g.length = 9 ∧ ∀ v, v < 9 → g.count v = 1 := by
  unfold validGrid at h
  rw [Bool.and_eq_true] at h
  obtain ⟨h1, h2⟩ := h
  refine ⟨by simpa using h1, ?_⟩
  intro v hv
  rw [List.all_eq_true] at h2
  have := h2 v (List.mem_range.2 hv)
  simpa using this

theorem validGrid_cell_lt {g : Grid} (h : validGrid g = true) :
    ∀ v ∈ g, v < 9 := by
  obtain ⟨hlen, hcount⟩ := validGrid_counts h
  intro v hv
  by_contra hv9
  have hsub : Finset.range 9 ⊆ g.toFinset := by
    intro w hw
    have hw9 := Finset.mem_range.1 hw
    have : 0 < g.count w := by
      rw [hcount w hw9]
      omega
    exact List.mem_toFinset.2 (List.count_pos_iff.1 this)
  have hvt : v ∈ g.toFinset := List.mem_toFinset.2 hv
  have hins : insert v (Finset.range 9) ⊆ g.toFinset := by
    intro w hw
    rcases Finset.mem_insert.1 hw with rfl | hw
    · exact hvt
    · exact hsub hw
  have hsum : ∑ a in insert v (Finset.range 9), g.count a ≤
      ∑ a in g.toFinset, g.count a :=
    Finset.sum_le_sum_of_subset hins
  rw [List.sum_toFinset_count_eq_length] at hsum
  rw [Finset.sum_insert (by simp; omega)] at hsum
  have h9 : ∑ a in Finset.range 9, g.count a = 9 := by
    rw [Finset.sum_congr rfl (fun a ha => hcount a (Finset.mem_range.1 ha))]
    simp
  have hv1 : 0 < g.count v := List.count_pos_iff.2 hv
  omega

theorem validGrid_nodup {g : Grid} (h : validGrid g = true) : g.Nodup := by
  rw [List.nodup_iff_count_le_one]
  intro v
  by_cases hv : v < 9
  · rw [(validGrid_counts h).2 v hv]
  · have : v ∉ g := fun hm => hv (validGrid_cell_lt h v hm)
    rw [List.count_eq_zero.2 this]
    omega

theorem validGrid_cells_distinct {g : Grid} (h : validGrid g = true) :
    ∀ r r', r < 9 → r' < 9 → r ≠ r' → cell g r ≠ cell g r' := by
  have hlen := (validGrid_counts h).1
  have hnd := validGrid_nodup h
  intro r r' hr hr' hne heq
  unfold cell at heq
  rcases Nat.lt_or_ge r r' with hlt | hge
  · have h2 := two_le_count_of_getD r r' hlt (by omega) rfl heq.symm
    have h1 := (List.nodup_iff_count_le_one.1 hnd) (g.getD r 0)
    omega
  · have hlt : r' < r := by omega
    have h2 := two_le_count_of_getD r' r hlt (by omega) rfl heq
    have h1 := (List.nodup_iff_count_le_one.1 hnd) (g.getD r' 0)
    omega

theorem eq_singleton_of_mem {l : List Nat} {b : Nat} (hb : b ∈ l)
    (hall : ∀ x ∈ l, x = b) (hnd : l.Nodup) : l = [b] := by
  cases l with
  | nil => simp at hb
  | cons x xs =>
    have hxb : x = b := hall x (List.mem_cons_self x xs)
    subst hxb
    cases xs with
    | nil => rfl
    | cons y ys =>
      have hyb : y = x := hall y (by simp)
      subst hyb
      simp at hnd

theorem validGrid_oneBlank {g : Grid} (h : validGrid g = true) : OneBlank g := by
  obtain ⟨hlen, hcount⟩ := validGrid_counts h
  have h0 : (0 : Nat) ∈ g := by
    have : 0 < g.count 0 := by
      rw [hcount 0 (by omega)]
      omega
    exact List.count_pos_iff.1 this
  obtain ⟨b, hb9, hbv⟩ := mem_getD h0
  rw [hlen] at hb9
  refine ⟨hlen, b, ?_⟩
  refine eq_singleton_of_mem (mem_blanks.2 ⟨hb9, hbv⟩) ?_ ?_
  · intro x hx
    obtain ⟨hx9, hx0⟩ := mem_blanks.1 hx
    by_contra hxb
    exact validGrid_cells_distinct h x b hx9 hb9 hxb (hx0.trans hbv.symm)
  · exact (List.nodup_range 9).filter _

/-! ## Admissibility and bounds of the heuristics -/

theorem sum9_zero : sum9 (fun _ => 0) = 0 := by
  simp [sum9]

theorem misplacedNB_refl (g : Grid) : misplacedNoBlank g g = 0 := by
  unfold misplacedNoBlank
  have h : ∀ p, p < 9 → mTerm g g p ≤ (fun _ => 0) p := by
    intro p hp
    simp [mTerm]
  have := sum9_le_sum9 h
  rw [sum9_zero] at this
  omega

theorem find?_eq_some_of_unique {α : Type _} {p : α → Bool} :
    ∀ {l : List α} {a : α}, a ∈ l → p a = true →
      (∀ b ∈ l, p b = true → b = a) → l.find? p = some a := by
  intro l
  induction l with
  | nil =>
    intro a ha
    simp at ha
  | cons x xs ih =>
    intro a ha hpa huniq
    by_cases hx : p x = true
    · have hxa : x = a := huniq x (List.mem_cons_self x xs) hx
      subst hxa
      simp [List.find?, hx]
    · have hax : a ∈ xs := by
        rcases List.mem_cons.1 ha with rfl | hmem
        · exact absurd hpa hx
        · exact hmem
      rw [List.find?_cons_of_neg _ hx]
      exact ih hax hpa (fun b hb => huniq b (List.mem_cons_of_mem x hb))

theorem goalFind_self {g : Grid} (hval : validGrid g = true) {r : Nat}
    (hr : r < 9) : goalFind g (cell g r) = some r := by
  unfold goalFind
  refine find?_eq_some_of_unique (List.mem_range.2 hr) (by simp) ?_
  intro b hb hpb
  have hb9 := List.mem_range.1 hb
  by_contra hbr
  exact validGrid_cells_distinct hval b r hb9 hr hbr (by simpa using hpb)

theorem manhattanNB_refl {g : Grid} (hval : validGrid g = true) :
    manhattanNoBlank g g = 0 := by
  unfold manhattanNoBlank
  have h : ∀ p, p < 9 → mhTerm g g p ≤ (fun _ => 0) p := by
    intro p hp
    unfold mhTerm
    by_cases h0 : cell g p = 0
    · simp [h0]
    · rw [if_neg h0, goalFind_self hval hp]
      show manhPos p p ≤ 0
      unfold manhPos
      omega
  have := sum9_le_sum9 h
  rw [sum9_zero] at this
  omega

theorem misplacedNB_admissible {g : Grid} : ∀ {n : Nat} {s : Grid},
    OneBlank s → pathLenB n s g = true → misplacedNoBlank s g ≤ n := by
  intro n
  induction n with
  | zero =>
    intro s _ h
    rw [pathLenB_zero] at h
    subst h
    rw [misplacedNB_refl]
  | succ n ih =>
    intro s hs h
    obtain ⟨u, hu, hp⟩ := pathLenB_succ.1 h
    obtain ⟨pp, qq, hp0, hadj, rfl⟩ := successorGrids_elim hu
    have hstep := (misplacedNB_step (g := g) hs.1 hp0 hadj).1
    have := ih (oneBlank_succ hs hu).1 hp
    omega

theorem manhattanNB_admissible {g : Grid} (hval : validGrid g = true) :
    ∀ {n : Nat} {s : Grid},
      OneBlank s → pathLenB n s g = true → manhattanNoBlank s g ≤ n := by
  intro n
  induction n with
  | zero =>
    intro s _ h
    rw [pathLenB_zero] at h
    subst h
    rw [manhattanNB_refl hval]
  | succ n ih =>
    intro s hs h
    obtain ⟨u, hu, hp⟩ := pathLenB_succ.1 h
    obtain ⟨pp, qq, hp0, hadj, rfl⟩ := successorGrids_elim hu
    have hstep := (manhattanNB_step (g := g) hs.1 hp0 hadj).1
    have := ih (oneBlank_succ hs hu).1 hp
    omega

theorem blank_indicator_sum {s : Grid} (hs : OneBlank s) :
    sum9 (fun r => if cell s r = 0 then 1 else 0) = 1 := by
  obtain ⟨hlen, b, hb⟩ := hs
  have hbm : b ∈ blanks s := by
    rw [hb]
    exact List.mem_singleton.2 rfl
  have hb9 : b < 9 := (mem_blanks.1 hbm).1
  have hiff : ∀ r, r < 9 → (cell s r = 0 ↔ r = b) := by
    intro r hr
    constructor
    · intro h0
      have : r ∈ blanks s := mem_blanks.2 ⟨hr, h0⟩
      rw [hb] at this
      exact List.mem_singleton.1 this
    · rintro rfl
      exact (mem_blanks.1 hbm).2
  calc sum9 (fun r => if cell s r = 0 then 1 else 0)
      = sum9 (fun r => if r = b then 1 else 0) := by
        unfold sum9
        refine Finset.sum_congr rfl ?_
        intro r hr
        have hr9 := Finset.mem_range.1 hr
        show (if cell s r = 0 then 1 else 0) = (if r = b then 1 else 0)
        by_cases hc : cell s r = 0
        · rw [if_pos hc, if_pos ((hiff r hr9).1 hc)]
        · rw [if_neg hc, if_neg (fun e => hc ((hiff r hr9).2 e))]
    _ = 1 := sum9_indicator hb9

theorem misplacedH_le_NB_add_one {s g : Grid} (hs : OneBlank s) :
    misplacedH s g ≤ misplacedNoBlank s g + 1 := by
  have h1 : misplacedH s g ≤
      sum9 (fun p => mTerm s g p + (if cell s p = 0 then 1 else 0)) := by
    unfold misplacedH
    refine sum9_le_sum9 (fun p hp => ?_)
    by_cases h0 : cell s p = 0
    · have e1 : (if cell s p ≠ cell g p then 1 else 0) ≤ 1 := by
        split <;> omega
      have e2 : mTerm s g p + (if cell s p = 0 then 1 else 0) = 1 := by
        simp [mTerm, h0]
      omega
    · have e1 : (if cell s p = 0 then 1 else 0) = 0 := by simp [h0]
      have e2 : (if cell s p ≠ cell g p then 1 else 0) = mTerm s g p := by
        simp [mTerm, h0]
      omega
  have h2 : sum9 (fun p => mTerm s g p + (if cell s p = 0 then 1 else 0)) =
      sum9 (mTerm s g) + sum9 (fun p => if cell s p = 0 then 1 else 0) := by
    unfold sum9
    rw [Finset.sum_add_distrib]
  rw [h2, blank_indicator_sum hs] at h1
  exact h1

theorem misplacedNB_le_misplacedH (s g : Grid) :
    misplacedNoBlank s g ≤ misplacedH s g := by
  unfold misplacedNoBlank misplacedH
  refine sum9_le_sum9 (fun p hp => ?_)
  unfold mTerm
  by_cases h1 : cell s p ≠ 0 ∧ cell s p ≠ cell g p
  · rw [if_pos h1, if_pos h1.2]
  · rw [if_neg h1]
    omega

/-! ## Fringe selection -/

theorem selectCurrent_spec : ∀ (xs : List Node) (x : Node),
    ∃ l₁ l₂, x :: xs = l₁ ++ selectCurrent x xs :: l₂ ∧
      (∀ n ∈ x :: xs, (selectCurrent x xs).f ≤ n.f) ∧
      ∀ n ∈ l₂, (selectCurrent x xs).f < n.f := by
  intro xs
  induction xs with
  | nil =>
    intro x
    exact ⟨[], [], rfl, by simp [selectCurrent], by simp⟩
  | cons y ys ih =>
    intro x
    have hstep : selectCurrent x (y :: ys) =
        selectCurrent (if y.f ≤ x.f then y else x) ys := rfl
    by_cases hle : y.f ≤ x.f
    · rw [hstep, if_pos hle]
      obtain ⟨l₁, l₂, heq, hmin, hlast⟩ := ih y
      refine ⟨x :: l₁, l₂, by rw [List.cons_append, ← heq], ?_, hlast⟩
      intro n hn
      rcases List.mem_cons.1 hn with rfl | hn
      · exact le_trans (hmin y (List.mem_cons_self y ys)) hle
      · exact hmin n hn
    · rw [hstep, if_neg hle]
      obtain ⟨l₁, l₂, heq, hmin, hlast⟩ := ih x
      cases l₁ with
      | nil =>
        simp only [List.nil_append, List.cons.injEq] at heq
        obtain ⟨hx, rfl⟩ := heq
        refine ⟨[], y :: ys, ?_, ?_, ?_⟩
        · rw [← hx]
          rfl
        · intro n hn
          rw [← hx]
          rcases List.mem_cons.1 hn with rfl | hn
          · exact Nat.le_refl _
          · rcases List.mem_cons.1 hn with rfl | hn
            · omega
            · exact hx ▸ hmin n (List.mem_cons_of_mem x hn)
        · intro n hn
          rw [← hx]
          rcases List.mem_cons.1 hn with rfl | hn
          · omega
          · exact hx ▸ hlast n hn
      | cons z t =>
        rw [List.cons_append] at heq
        simp only [List.cons.injEq] at heq
        obtain ⟨rfl, hys⟩ := heq
        refine ⟨x :: y :: t, l₂, ?_, ?_, hlast⟩
        · rw [List.cons_append, List.cons_append, ← hys]
        · intro n hn
          have hminx := hmin x (List.mem_cons_self x ys)
          rcases List.mem_cons.1 hn with rfl | hn
          · exact hminx
          · rcases List.mem_cons.1 hn with rfl | hn
            · omega
            · exact hmin n (List.mem_cons_of_mem x hn)

theorem selectCurrent_mem (x : Node) (xs : List Node) :
    selectCurrent x xs ∈ x :: xs := by
  obtain ⟨l₁, l₂, heq, _, _⟩ := selectCurrent_spec xs x
  rw [heq]
  exact List.mem_append.2 (Or.inr (List.mem_cons_self _ _))

theorem selectCurrent_min (x : Node) (xs : List Node) :
    ∀ n ∈ x :: xs, (selectCurrent x xs).f ≤ n.f :=
  (selectCurrent_spec xs x).choose_spec.choose_spec.2.1

theorem selectCurrent_cons_self (x : Node) (xs : List Node) :
    selectCurrent x (x :: xs) = selectCurrent x xs := by
  show selectCurrent (if x.f ≤ x.f then x else x) xs = selectCurrent x xs
  rw [if_pos (Nat.le_refl _)]

/-! ## Normal form of one expansion -/

theorem setChildState_eq (hs : Heur) (goal : Grid) (curG pidx : Nat)
    (st : SState) (c : Grid) :
    setChildState hs goal curG pidx st c =
      (if isExplored st.closed c then ⟨st.fringe, st.closed, st.gen + 1⟩
       else ⟨st.fringe ++ [mkChild hs goal curG pidx c], st.closed,
          st.gen + 1⟩, false) := by
  unfold setChildState mkChild
  by_cases hexp : isExplored st.closed c <;> simp [hexp]

theorem setChildState_false (hs : Heur) (goal : Grid) (curG pidx : Nat)
    (st : SState) (c : Grid) :
    (setChildState hs goal curG pidx st c).2 = false := by
  rw [setChildState_eq]

theorem foldl_setChildState (hs : Heur) (goal : Grid) (curG pidx : Nat) :
    ∀ (cs : List Grid) (fr cl : List Node) (gen : Nat),
      cs.foldl (fun (acc : SState × Bool) c =>
          if acc.2 then acc else setChildState hs goal curG pidx acc.1 c)
        (⟨fr, cl, gen⟩, false) =
        (⟨fr ++ pushChildren hs goal curG pidx cl cs, cl, gen + cs.length⟩,
          false) := by
  intro cs
  induction cs with
  | nil =>
    intro fr cl gen
    simp [pushChildren]
  | cons c cs ih =>
    intro fr cl gen
    rw [List.foldl_cons]
    have h1 : (if ((⟨fr, cl, gen⟩ : SState), false).2 = true
          then ((⟨fr, cl, gen⟩ : SState), false)
          else setChildState hs goal curG pidx
            ((⟨fr, cl, gen⟩ : SState), false).1 c) =
        setChildState hs goal curG pidx ⟨fr, cl, gen⟩ c := rfl
    rw [h1, setChildState_eq]
    by_cases hexp : isExplored cl c
    · rw [if_pos hexp, ih fr cl (gen + 1)]
      simp [pushChildren, hexp]
      omega
    · rw [if_neg hexp, ih (fr ++ [mkChild hs goal curG pidx c]) cl (gen + 1)]
      simp [pushChildren, hexp]
      omega

theorem getSuccessors_eq (hs : Heur) (goal : Grid) (st : SState)
    (cur : Node) :
    getSuccessors hs goal st cur =
      (⟨(st.fringe ++ pushChildren hs goal cur.g st.closed.length
            (st.closed ++ [cur]) (successorGrids cur.a)).filter
          (fun n => !(n.a == cur.a)),
        st.closed ++ [cur], st.gen + (successorGrids cur.a).length⟩,
        false) := by
  rcases st with ⟨fr, cl, gen⟩
  unfold getSuccessors
  dsimp only
  rw [foldl_setChildState]
  simp

theorem getSuccessors_false (hs : Heur) (goal : Grid) (st : SState)
    (cur : Node) : (getSuccessors hs goal st cur).2 = false := by
  rw [getSuccessors_eq]

theorem solveLoop_zero (hs : Heur) (goal : Grid) (st : SState) :
    solveLoop hs goal 0 st = .outOfFuel := rfl

theorem solveLoop_nil (hs : Heur) (goal : Grid) (fuel : Nat)
    (cl : List Node) (gen : Nat) :
    solveLoop hs goal (fuel + 1) ⟨[], cl, gen⟩ = .ubEmptyFringe := rfl

theorem solveLoop_cons (hs : Heur) (goal : Grid) (fuel : Nat) (x : Node)
    (xs cl : List Node) (gen : Nat) :
    solveLoop hs goal (fuel + 1) ⟨x :: xs, cl, gen⟩ =
      if isGoal (selectCurrent x (x :: xs)).a goal then
        .success (pathTo cl (cl.length + 1) (selectCurrent x (x :: xs)))
          gen cl.length
      else
        solveLoop hs goal fuel
          (getSuccessors hs goal ⟨x :: xs, cl, gen⟩
            (selectCurrent x (x :: xs))).1 := by
  rw [solveLoop]
  dsimp only
  by_cases hg : isGoal (selectCurrent x (x :: xs)).a goal
  · rw [if_pos hg, if_pos hg]
  · rw [if_neg hg, if_neg hg, getSuccessors_false]
    simp

theorem mem_pushChildren {hs : Heur} {goal : Grid} {curG pidx : Nat}
    {closedL : List Node} {cs : List Grid} {n : Node}
    (h : n ∈ pushChildren hs goal curG pidx closedL cs) :
    ∃ c ∈ cs, isExplored closedL c = false ∧
      n = mkChild hs goal curG pidx c := by
  unfold pushChildren at h
  obtain ⟨c, hc, he⟩ := List.mem_filterMap.1 h
  by_cases hexp : isExplored closedL c
  · rw [if_pos hexp] at he
    exact absurd he (by simp)
  · rw [if_neg hexp] at he
    exact ⟨c, hc, by simpa using hexp, (Option.some.inj he).symm⟩

theorem pushChildren_mem_of {hs : Heur} {goal : Grid} {curG pidx : Nat}
    {closedL : List Node} {cs : List Grid} {c : Grid} (hc : c ∈ cs)
    (hexp : isExplored closedL c = false) :
    mkChild hs goal curG pidx c ∈ pushChildren hs goal curG pidx closedL cs :=
  List.mem_filterMap.2 ⟨c, hc, by rw [if_neg (by simp [hexp])]⟩

theorem isExplored_false_iff {closedL : List Node} {c : Grid} :
    isExplored closedL c = false ↔ ∀ m ∈ closedL, m.a ≠ c := by
  unfold isExplored
  rw [List.any_eq_false]
  constructor
  · intro h m hm
    have := h m hm
    simpa using this
  · intro h m hm
    simpa using h m hm

theorem solveLoop_outcomes (hs : Heur) (goal : Grid) :
    ∀ (fuel : Nat) (st : SState),
      (∃ p g0 e, solveLoop hs goal fuel st = .success p g0 e) ∨
        solveLoop hs goal fuel st = .ubEmptyFringe ∨
        solveLoop hs goal fuel st = .outOfFuel := by
  intro fuel
  induction fuel with
  | zero =>
    intro st
    right; right; rfl
  | succ fuel ih =>
    intro st
    rcases st with ⟨fr, cl, g0⟩
    cases fr with
    | nil =>
      right; left; rfl
    | cons x xs =>
      rw [solveLoop_cons]
      by_cases hg : isGoal (selectCurrent x (x :: xs)).a goal
      · rw [if_pos hg]
        left
        exact ⟨_, _, _, rfl⟩
      · rw [if_neg hg]
        exact ih _

theorem isGoal_refl (a : Grid) : isGoal a a = true := by
  unfold isGoal
  rw [List.all_eq_true]
  intro p hp
  simp

/-! ## Claim theorems: break branches, failure outcomes, trivial runs -/

/-- C10: `setChildState` returns `false` on every call, hence
`getSuccessors` also returns `false` on every call, and the goal-found
break branches (in `getSuccessors` and after it in `solve`) are
unreachable: the loop never exits through them, so the goal can only be
detected by the `isGoal` test on the node selected from the fringe. -/
theorem C10_break_branches_unreachable :
    (∀ hs goal curG pidx st c,
        (setChildState hs goal curG pidx st c).2 = false) ∧
      (∀ hs goal st cur, (getSuccessors hs goal st cur).2 = false) ∧
      ∀ hs goal fuel st g0, solveLoop hs goal fuel st ≠ .brokeNoPath g0 := by
  refine ⟨setChildState_false, getSuccessors_false, ?_⟩
  intro hs goal fuel st g0 h
  rcases solveLoop_outcomes hs goal fuel st with ⟨p, g1, e, he⟩ | he | he <;>
    rw [he] at h <;> exact Outcome.noConfusion h

/-- C2 (divergence witness): the embedded driver never produces the
spec's `FAILED` outcome — no such transition exists in the code — and
when the fringe empties it instead reaches the undefined-behaviour
state of `fringe.front()` on an empty `std::list`. -/
theorem C2_no_failed_transition :
    (∀ hs goal fuel st, solveLoop hs goal fuel st ≠ .failed) ∧
      ∀ hs goal fuel cl g0,
        solveLoop hs goal (fuel + 1) ⟨[], cl, g0⟩ = .ubEmptyFringe := by
  constructor
  · intro hs goal fuel st h
    rcases solveLoop_outcomes hs goal fuel st with ⟨p, g1, e, he⟩ | he | he <;>
      rw [he] at h <;> exact Outcome.noConfusion h
  · intro hs goal fuel cl g0
    rfl

/-- C5 (divergence witness): the program performs no input validation.
The loop has no invalid-input outcome at all, and on a malformed grid
(8 twice, no blank) the search happily runs and reports success with a
one-element path rather than rejecting the input. -/
theorem C5_no_input_validation :
    validGrid [1, 2, 3, 4, 5, 6, 7, 8, 8] = false ∧
      (∀ hs goal fuel st, solveLoop hs goal fuel st ≠ .invalidInput) ∧
      runAStar .misplaced [1, 2, 3, 4, 5, 6, 7, 8, 8]
          [1, 2, 3, 4, 5, 6, 7, 8, 8] 1 =
        .success [[1, 2, 3, 4, 5, 6, 7, 8, 8]] 0 0 := by
  refine ⟨by decide, ?_, by decide⟩
  intro hs goal fuel st h
  rcases solveLoop_outcomes hs goal fuel st with ⟨p, g1, e, he⟩ | he | he <;>
    rw [he] at h <;> exact Outcome.noConfusion h

/-- C7: the search is deterministic — identical start and goal inputs
yield the identical outcome, hence identical path and identical
`nodesGenerated`/`nodesExpanded` counters.  The embedding is a pure
function of its inputs; the C++ has no nondeterminism source (a
`std::list` iterates in insertion order). -/
theorem C7_deterministic (hs : Heur) (s1 g1 s2 g2 : Grid) (fuel : Nat)
    (h1 : s1 = s2) (h2 : g1 = g2) :
    runAStar hs s1 g1 fuel = runAStar hs s2 g2 fuel := by
  subst h1
  subst h2
  rfl

theorem C7_witness :
    ([1, 2, 3, 4, 5, 6, 7, 0, 8] : Grid) = [1, 2, 3, 4, 5, 6, 7, 0, 8] ∧
      runAStar .misplaced [1, 2, 3, 4, 5, 6, 7, 0, 8]
          [1, 2, 3, 4, 5, 6, 7, 8, 0] 5 =
        runAStar .misplaced [1, 2, 3, 4, 5, 6, 7, 0, 8]
          [1, 2, 3, 4, 5, 6, 7, 8, 0] 5 :=
  ⟨rfl, C7_deterministic .misplaced _ _ _ _ 5 rfl rfl⟩

/-- C8: with start equal to goal the run succeeds at once: the start
node is selected, passes the goal test before any expansion, and the
reconstructed path is the single grid with `nodesExpanded = 0` (and
`nodesGenerated = 0`). -/
theorem C8_start_eq_goal (hs : Heur) (G : Grid) (fuel : Nat)
    (_hv : validGrid G = true) :
    runAStar hs G G (fuel + 1) = .success [G] 0 0 := by
  unfold runAStar
  rw [solveLoop_cons, selectCurrent_cons_self]
  have hsel : selectCurrent (initNode hs G G) [] = initNode hs G G := rfl
  have ha : (initNode hs G G).a = G := rfl
  rw [hsel, ha, if_pos (isGoal_refl G)]
  rfl

theorem C8_witness :
    validGrid [1, 2, 3, 4, 5, 6, 7, 8, 0] = true ∧
      runAStar .misplaced [1, 2, 3, 4, 5, 6, 7, 8, 0]
          [1, 2, 3, 4, 5, 6, 7, 8, 0] 1 =
        .success [[1, 2, 3, 4, 5, 6, 7, 8, 0]] 0 0 :=
  ⟨by decide, C8_start_eq_goal .misplaced [1, 2, 3, 4, 5, 6, 7, 8, 0] 0
    (by decide)⟩

/-- C3 (counterexample): two distinct nodes with equal `f = 2`; the
scan starts at the first and STILL replaces it by the later one,
because `operator<` is the non-strict `this->f <= cur.f`.  The claim
says a non-strict comparison never causes replacement and the
earliest-inserted equal-`f` node is selected; the code selects the
latest-inserted one. -/
theorem C3_counterexample :
    selectCurrent ⟨[1, 2, 3, 4, 5, 6, 7, 0, 8], 0, 2, 2, none⟩
        [⟨[1, 2, 3, 4, 5, 6, 7, 0, 8], 0, 2, 2, none⟩,
          ⟨[1, 2, 3, 4, 5, 6, 0, 7, 8], 1, 1, 2, none⟩] =
      ⟨[1, 2, 3, 4, 5, 6, 0, 7, 8], 1, 1, 2, none⟩ ∧
    (⟨[1, 2, 3, 4, 5, 6, 0, 7, 8], 1, 1, 2, none⟩ : Node) ≠
      ⟨[1, 2, 3, 4, 5, 6, 7, 0, 8], 0, 2, 2, none⟩ := by
  constructor
  · rfl
  · decide

/-- C3 (amended): fringe selection is deterministic LAST-minimum: the
scan replaces the tentative best whenever a later element's `f` is less
than or equal to it, so the selected node attains the minimum `f` and
every element strictly after it in the fringe has strictly greater `f`
— among equal-`f` nodes the latest-inserted one is selected. -/
theorem C3_amended_last_minimum (x : Node) (xs : List Node) :
    ∃ l₁ l₂, x :: xs = l₁ ++ selectCurrent x (x :: xs) :: l₂ ∧
      (∀ n ∈ x :: xs, (selectCurrent x (x :: xs)).f ≤ n.f) ∧
      ∀ n ∈ l₂, (selectCurrent x (x :: xs)).f < n.f := by
  rw [selectCurrent_cons_self]
  exact selectCurrent_spec xs x

theorem disjoint_step (hs : Heur) (goal : Grid) (st : SState) (cur : Node)
    (hinv : FringeClosedDisjoint st) :
    FringeClosedDisjoint (getSuccessors hs goal st cur).1 := by
  intro n hn m hm
  rw [getSuccessors_eq] at hn hm
  obtain ⟨hn', hna⟩ := List.mem_filter.1 hn
  have hnea : n.a ≠ cur.a := by simpa using hna
  rcases List.mem_append.1 hm with hm | hm
  · rcases List.mem_append.1 hn' with hnf | hnp
    · exact hinv n hnf m hm
    · obtain ⟨c, _, hexp, rfl⟩ := mem_pushChildren hnp
      have := isExplored_false_iff.1 hexp m (List.mem_append.2 (Or.inl hm))
      exact fun e => this (e ▸ rfl)
  · rw [List.mem_singleton.1 hm]
    exact hnea

theorem expanded_removed (hs : Heur) (goal : Grid) (st : SState)
    (cur : Node) :
    ∀ n ∈ (getSuccessors hs goal st cur).1.fringe, n.a ≠ cur.a := by
  intro n hn
  rw [getSuccessors_eq] at hn
  obtain ⟨_, hna⟩ := List.mem_filter.1 hn
  simpa using hna

/-- C6: no state in the fringe is ever also in Closed.  The seed state
satisfies the invariant, one expansion preserves it (successors equal
to a closed state are discarded before insertion), and after an
expansion no fringe node carries the expanded node's state (the
`fringe.remove(currentNode)` sweep deletes every instance). -/
theorem C6_fringe_closed_disjoint :
    (∀ hs s goal, FringeClosedDisjoint ⟨[initNode hs s goal], [], 0⟩) ∧
      (∀ hs goal st cur, FringeClosedDisjoint st →
        FringeClosedDisjoint (getSuccessors hs goal st cur).1) ∧
      ∀ hs goal st cur,
        ∀ n ∈ (getSuccessors hs goal st cur).1.fringe, n.a ≠ cur.a := by
  refine ⟨?_, disjoint_step, expanded_removed⟩
  intro hs s goal n _ m hm
  exact absurd hm (List.not_mem_nil m)

theorem C6_witness :
    FringeClosedDisjoint ⟨[⟨[1, 2, 3, 4, 5, 6, 7, 0, 8], 0, 2, 2, none⟩],
        [⟨[1, 2, 3, 4, 0, 6, 7, 5, 8], 0, 3, 3, none⟩], 0⟩ ∧
      FringeClosedDisjoint (getSuccessors .misplaced [1, 2, 3, 4, 5, 6, 7, 8, 0]
        ⟨[⟨[1, 2, 3, 4, 5, 6, 7, 0, 8], 0, 2, 2, none⟩],
          [⟨[1, 2, 3, 4, 0, 6, 7, 5, 8], 0, 3, 3, none⟩], 0⟩
        ⟨[1, 2, 3, 4, 5, 6, 7, 0, 8], 0, 2, 2, none⟩).1 :=
  ⟨by unfold FringeClosedDisjoint; decide,
    C6_fringe_closed_disjoint.2.1 .misplaced [1, 2, 3, 4, 5, 6, 7, 8, 0]
      ⟨[⟨[1, 2, 3, 4, 5, 6, 7, 0, 8], 0, 2, 2, none⟩],
        [⟨[1, 2, 3, 4, 0, 6, 7, 5, 8], 0, 3, 3, none⟩], 0⟩
      ⟨[1, 2, 3, 4, 5, 6, 7, 0, 8], 0, 2, 2, none⟩
      (by unfold FringeClosedDisjoint; decide)⟩

/-- C4 (counterexample): both implemented heuristics count the blank
cell, so neither is admissible nor consistent.  The valid state with
the blank one slide short of the goal is at true distance 1 (a single
legal slide reaches the goal), yet both heuristics return 2 — an
overestimate — and along that very slide `h(s) = 2 > 1 + h(goal) = 1`,
violating consistency. -/
theorem C4_counterexample :
    validGrid [1, 2, 3, 4, 5, 6, 7, 0, 8] = true ∧
      validGrid [1, 2, 3, 4, 5, 6, 7, 8, 0] = true ∧
      pathLenB 1 [1, 2, 3, 4, 5, 6, 7, 0, 8] [1, 2, 3, 4, 5, 6, 7, 8, 0] =
        true ∧
      [1, 2, 3, 4, 5, 6, 7, 8, 0] ∈ successorGrids [1, 2, 3, 4, 5, 6, 7, 0, 8] ∧
      misplacedH [1, 2, 3, 4, 5, 6, 7, 0, 8] [1, 2, 3, 4, 5, 6, 7, 8, 0] = 2 ∧
      manhattanH [1, 2, 3, 4, 5, 6, 7, 0, 8] [1, 2, 3, 4, 5, 6, 7, 8, 0] = 2 ∧
      misplacedH [1, 2, 3, 4, 5, 6, 7, 8, 0] [1, 2, 3, 4, 5, 6, 7, 8, 0] = 0 ∧
      manhattanH [1, 2, 3, 4, 5, 6, 7, 8, 0] [1, 2, 3, 4, 5, 6, 7, 8, 0] = 0 := by
  decide

/-- C4 (amended): with the blank cell excluded, both heuristics are
admissible (never exceed the length of any slide sequence to the goal)
and consistent (change by at most 1 across one legal slide); the
implemented misplaced count differs from its blank-free variant by at
most the single blank cell. -/
theorem C4_amended_noblank_admissible_consistent :
    (∀ (n : Nat) (s g : Grid), OneBlank s → validGrid g = true →
        pathLenB n s g = true →
        misplacedNoBlank s g ≤ n ∧ manhattanNoBlank s g ≤ n) ∧
      (∀ (s g t : Grid), s.length = 9 → t ∈ successorGrids s →
        misplacedNoBlank s g ≤ 1 + misplacedNoBlank t g ∧
          manhattanNoBlank s g ≤ 1 + manhattanNoBlank t g) ∧
      ∀ (s g : Grid), OneBlank s →
        misplacedNoBlank s g ≤ misplacedH s g ∧
          misplacedH s g ≤ misplacedNoBlank s g + 1 := by
  refine ⟨?_, ?_, ?_⟩
  · intro n s g hs hg hp
    exact ⟨misplacedNB_admissible hs hp, manhattanNB_admissible hg hs hp⟩
  · intro s g t hlen ht
    obtain ⟨p, q, hp0, hadj, rfl⟩ := successorGrids_elim ht
    constructor
    · have := (misplacedNB_step (g := g) hlen hp0 hadj).1
      omega
    · have := (manhattanNB_step (g := g) hlen hp0 hadj).1
      omega
  · intro s g hs
    exact ⟨misplacedNB_le_misplacedH s g, misplacedH_le_NB_add_one hs⟩

/-! ## Path reconstruction machinery -/

theorem successor_length {a t : Grid} (h : t ∈ successorGrids a) :
    t.length = a.length := by
  obtain ⟨p, q, _, _, rfl⟩ := successorGrids_elim h
  exact length_swapCells a p q

theorem getElem?_some_getD : ∀ (l : List Nat) (n : Nat), n < l.length →
    l[n]? = some (l.getD n 0) := by
  intro l
  induction l with
  | nil =>
    intro n hn
    simp at hn
  | cons x xs ih =>
    intro n hn
    cases n with
    | zero => simp
    | succ n' =>
      rw [List.getElem?_cons_succ, List.getD_cons_succ]
      exact ih n' (by simpa using hn)

theorem grid_ext {l l' : Grid} (h9 : l.length = 9) (h9' : l'.length = 9)
    (hc : ∀ p, p < 9 → cell l p = cell l' p) : l = l' := by
  apply List.ext_getElem?
  intro n
  by_cases hn : n < 9
  · rw [getElem?_some_getD l n (by omega), getElem?_some_getD l' n (by omega)]
    exact congrArg some (hc n hn)
  · rw [List.getElem?_eq_none (by omega), List.getElem?_eq_none (by omega)]

theorem isGoal_eq {a goal : Grid} (ha : a.length = 9)
    (hg : goal.length = 9) (h : isGoal a goal = true) : a = goal := by
  refine grid_ext ha hg ?_
  intro p hp
  have := (List.all_eq_true.1 h) p (List.mem_range.2 hp)
  simpa using this

theorem nodeOK_mono {start : Grid} {cl ex : List Node} {b b' : Nat}
    {n : Node} (h : NodeOK start cl b n) (hb : b ≤ b')
    (hbl : b ≤ cl.length) : NodeOK start (cl ++ ex) b' n := by
  rcases h with h | ⟨p, pn, hp, hpb, hget, hmem, hg⟩
  · exact Or.inl h
  · refine Or.inr ⟨p, pn, hp, by omega, ?_, hmem, hg⟩
    rw [List.getElem?_append_left (by omega)]
    exact hget

theorem pathTo_succ_none {cl : List Node} {fuel : Nat} {n : Node}
    (hp : n.parent = none) : pathTo cl (fuel + 1) n = [n.a] := by
  rcases n with ⟨na, ng, nh, nf, npar⟩
  dsimp only at hp
  subst hp
  rfl

theorem pathTo_succ_dangling {cl : List Node} {fuel : Nat} {n : Node}
    {p : Nat} (hp : n.parent = some p) (hget : cl[p]? = none) :
    pathTo cl (fuel + 1) n = [n.a] := by
  rcases n with ⟨na, ng, nh, nf, npar⟩
  dsimp only at hp
  subst hp
  show (match cl[p]? with
    | none => [na]
    | some pn => pathTo cl fuel pn ++ [na]) = [na]
  rw [hget]

theorem pathTo_succ_some {cl : List Node} {fuel : Nat} {n : Node}
    {p : Nat} {pn : Node} (hp : n.parent = some p)
    (hget : cl[p]? = some pn) :
    pathTo cl (fuel + 1) n = pathTo cl fuel pn ++ [n.a] := by
  rcases n with ⟨na, ng, nh, nf, npar⟩
  dsimp only at hp
  subst hp
  show (match cl[p]? with
    | none => [na]
    | some pn => pathTo cl fuel pn ++ [na]) = pathTo cl fuel pn ++ [na]
  rw [hget]

theorem pathTo_ne_nil (cl : List Node) : ∀ (fuel : Nat) (n : Node),
    pathTo cl fuel n ≠ [] := by
  intro fuel n
  cases fuel with
  | zero => simp [pathTo]
  | succ fuel =>
    cases hp : n.parent with
    | none =>
      rw [pathTo_succ_none hp]
      simp
    | some p =>
      cases hget : cl[p]? with
      | none =>
        rw [pathTo_succ_dangling hp hget]
        simp
      | some pn =>
        rw [pathTo_succ_some hp hget]
        simp

theorem pathTo_ok {start : Grid} {cl : List Node}
    (hcl : ∀ k pn, cl[k]? = some pn → NodeOK start cl k pn) :
    ∀ (fuel : Nat) (n : Node) (b : Nat), b ≤ fuel → NodeOK start cl b n →
      (pathTo cl fuel n).head? = some start ∧
        (pathTo cl fuel n).getLast? = some n.a ∧
        (pathTo cl fuel n).length = n.g + 1 ∧
        List.Chain' (fun a c => c ∈ successorGrids a) (pathTo cl fuel n) := by
  intro fuel
  induction fuel with
  | zero =>
    intro n b hb hok
    rcases hok with ⟨hp, ha, hg⟩ | ⟨p, pn, _, hpb, _⟩
    · exact ⟨by simp [pathTo, ha], by simp [pathTo], by simp [pathTo, hg],
        by simp [pathTo]⟩
    · omega
  | succ fuel ih =>
    intro n b hb hok
    rcases hok with ⟨hp, ha, hg⟩ | ⟨p, pn, hp, hpb, hget, hmem, hg⟩
    · rw [pathTo_succ_none hp]
      exact ⟨by simp [ha], by simp, by simp [hg], by simp⟩
    · have hokp := hcl p pn hget
      obtain ⟨ihh, ihl, ihlen, ihch⟩ := ih pn p (by omega) hokp
      rw [pathTo_succ_some hp hget]
      refine ⟨?_, ?_, ?_, ?_⟩
      · rcases hl : pathTo cl fuel pn with _ | ⟨y, ys⟩
        · exact absurd hl (pathTo_ne_nil cl fuel pn)
        · rw [hl] at ihh
          simpa using ihh
      · rw [List.getLast?_concat]
      · rw [List.length_append, ihlen]
        simp [hg]
      · rw [List.chain'_append]
        refine ⟨ihch, by simp, ?_⟩
        intro x hx y hy
        simp only [List.head?_cons, Option.mem_def, Option.some.injEq] at hy
        rw [ihl] at hx
        simp only [Option.mem_def, Option.some.injEq] at hx
        subst hx
        subst hy
        exact hmem

theorem parentsOK_init (hs : Heur) (s goal : Grid) :
    ParentsOK s ⟨[initNode hs s goal], [], 0⟩ := by
  constructor
  · intro k pn hk
    simp at hk
  · intro n hn
    rw [List.mem_singleton] at hn
    subst hn
    exact Or.inl ⟨rfl, rfl, rfl⟩

theorem parentsOK_step {start : Grid} (hs : Heur) (goal : Grid)
    {st : SState} {cur : Node} (hok : ParentsOK start st)
    (hcur : cur ∈ st.fringe) :
    ParentsOK start (getSuccessors hs goal st cur).1 := by
  rw [getSuccessors_eq]
  obtain ⟨hclosed, hfringe⟩ := hok
  constructor
  · intro k pn hk
    dsimp at hk ⊢
    by_cases hkl : k < st.closed.length
    · rw [List.getElem?_append_left hkl] at hk
      exact nodeOK_mono (hclosed k pn hk) (Nat.le_refl _) (by omega)
    · have hk9 : k < (st.closed ++ [cur]).length := by
        by_contra hge
        rw [List.getElem?_eq_none (by omega)] at hk
        exact Option.noConfusion hk
      rw [List.length_append] at hk9
      have hkeq : k = st.closed.length := by
        simp at hk9
        omega
      subst hkeq
      rw [List.getElem?_concat_length] at hk
      have hpn : pn = cur := (Option.some.inj hk).symm
      subst hpn
      exact nodeOK_mono (hfringe pn hcur) (Nat.le_refl _) (Nat.le_refl _)
  · intro n hn
    dsimp at hn ⊢
    obtain ⟨hn', _⟩ := List.mem_filter.1 hn
    rcases List.mem_append.1 hn' with hnf | hnp
    · exact nodeOK_mono (hfringe n hnf) (by simp) (Nat.le_refl _)
    · obtain ⟨c, hc, hexp, rfl⟩ := mem_pushChildren hnp
      refine Or.inr ⟨st.closed.length, cur, rfl, by simp, ?_, hc, rfl⟩
      exact List.getElem?_concat_length st.closed cur

theorem shapesOK_init (hs : Heur) {s : Grid} (goal : Grid)
    (h9 : s.length = 9) : ShapesOK ⟨[initNode hs s goal], [], 0⟩ := by
  constructor
  · intro n hn
    rw [List.mem_singleton] at hn
    subst hn
    exact h9
  · intro n hn
    exact absurd hn (List.not_mem_nil n)

theorem shapesOK_step (hs : Heur) (goal : Grid) {st : SState} {cur : Node}
    (hok : ShapesOK st) (hcur : cur ∈ st.fringe) :
    ShapesOK (getSuccessors hs goal st cur).1 := by
  rw [getSuccessors_eq]
  obtain ⟨hfr, hcl⟩ := hok
  constructor
  · intro n hn
    dsimp at hn
    obtain ⟨hn', _⟩ := List.mem_filter.1 hn
    rcases List.mem_append.1 hn' with hnf | hnp
    · exact hfr n hnf
    · obtain ⟨c, hc, _, rfl⟩ := mem_pushChildren hnp
      show c.length = 9
      rw [successor_length hc]
      exact hfr cur hcur
  · intro n hn
    dsimp at hn
    rcases List.mem_append.1 hn with hm | hm
    · exact hcl n hm
    · rw [List.mem_singleton.1 hm]
      exact hfr cur hcur

theorem solveLoop_success_path (hs : Heur) (start goal : Grid)
    (_hs9 : start.length = 9) (hg9 : goal.length = 9) :
    ∀ (fuel : Nat) (st : SState), ParentsOK start st → ShapesOK st →
      ∀ {path : List Grid} {g0 e : Nat},
        solveLoop hs goal fuel st = .success path g0 e →
        path.head? = some start ∧ path.getLast? = some goal ∧
          List.Chain' (fun a c => c ∈ successorGrids a) path := by
  intro fuel
  induction fuel with
  | zero =>
    intro st _ _ path g0 e h
    exact absurd h (by rw [solveLoop_zero]; exact fun he => Outcome.noConfusion he)
  | succ fuel ih =>
    intro st hpar hsh path g0 e h
    rcases st with ⟨fr, cl, g1⟩
    cases fr with
    | nil =>
      rw [solveLoop_nil] at h
      exact absurd h (fun he => Outcome.noConfusion he)
    | cons x xs =>
      rw [solveLoop_cons] at h
      have hcur : selectCurrent x (x :: xs) ∈ x :: xs := by
        rw [selectCurrent_cons_self]
        exact selectCurrent_mem x xs
      by_cases hg : isGoal (selectCurrent x (x :: xs)).a goal
      · rw [if_pos hg] at h
        obtain ⟨hpath, hg0, he⟩ : pathTo cl (cl.length + 1)
            (selectCurrent x (x :: xs)) = path ∧ g1 = g0 ∧ cl.length = e := by
          cases h
          exact ⟨rfl, rfl, rfl⟩
        subst hpath
        have hok : NodeOK start cl cl.length (selectCurrent x (x :: xs)) :=
          hpar.2 _ hcur
        obtain ⟨hh, hl, _, hch⟩ := pathTo_ok hpar.1 (cl.length + 1)
          (selectCurrent x (x :: xs)) cl.length (by omega) hok
        have hga : (selectCurrent x (x :: xs)).a = goal :=
          isGoal_eq (hsh.1 _ hcur) hg9 hg
        exact ⟨hh, by rw [← hga]; exact hl, hch⟩
      · rw [if_neg hg] at h
        exact ih _ (parentsOK_step hs goal hpar hcur)
          (shapesOK_step hs goal hsh hcur) h

/-- C9: on every successful run the reconstructed path (following
parent references from the goal node back to the parentless start node,
prepending each state) runs from the start grid to the goal grid
inclusive, and it is contiguous: every adjacent pair of grids differs
by exactly one swap of the blank with an in-bounds neighbour. -/
theorem C9_path_reconstruction (hs : Heur) (s goal : Grid) (fuel : Nat)
    (path : List Grid) (g0 e : Nat) (hs9 : s.length = 9)
    (hg9 : goal.length = 9)
    (hrun : runAStar hs s goal fuel = .success path g0 e) :
    path.head? = some s ∧ path.getLast? = some goal ∧
      List.Chain' (fun a c => c ∈ successorGrids a) path :=
  solveLoop_success_path hs s goal hs9 hg9 fuel _ (parentsOK_init hs s goal)
    (shapesOK_init hs goal hs9) hrun

theorem C9_witness :
    ([[1, 2, 3, 4, 5, 6, 7, 0, 8], [1, 2, 3, 4, 5, 6, 7, 8, 0]] :
        List Grid).head? = some [1, 2, 3, 4, 5, 6, 7, 0, 8] ∧
      ([[1, 2, 3, 4, 5, 6, 7, 0, 8], [1, 2, 3, 4, 5, 6, 7, 8, 0]] :
        List Grid).getLast? = some [1, 2, 3, 4, 5, 6, 7, 8, 0] ∧
      List.Chain' (fun a c => c ∈ successorGrids a)
        [[1, 2, 3, 4, 5, 6, 7, 0, 8], [1, 2, 3, 4, 5, 6, 7, 8, 0]] :=
  C9_path_reconstruction .misplaced [1, 2, 3, 4, 5, 6, 7, 0, 8]
    [1, 2, 3, 4, 5, 6, 7, 8, 0] 5
    [[1, 2, 3, 4, 5, 6, 7, 0, 8], [1, 2, 3, 4, 5, 6, 7, 8, 0]] 3 1
    (by decide) (by decide) (by decide)

/-! ## Optimality of the shipped search -/

theorem pathLenB_refl (s : Grid) : pathLenB 0 s s = true := by
  simp [pathLenB]

theorem isDist_unique {s t : Grid} {m n : Nat} (hm : IsDist s t m)
    (hn : IsDist s t n) : m = n :=
  Nat.le_antisymm (hm.2 n hn.1) (hn.2 m hm.1)

theorem isDist_exists {s t : Grid} {n : Nat} (h : pathLenB n s t = true) :
    ∃ d, IsDist s t d ∧ d ≤ n := by
  have hex : ∃ m, pathLenB m s t = true := ⟨n, h⟩
  refine ⟨Nat.find hex, ⟨Nat.find_spec hex, ?_⟩, Nat.find_min' hex h⟩
  intro m hm
  exact Nat.find_min' hex hm

theorem misplacedNB_path_le {g : Grid} : ∀ {k : Nat} {s t : Grid},
    OneBlank s → pathLenB k s t = true →
    misplacedNoBlank s g ≤ misplacedNoBlank t g + k := by
  intro k
  induction k with
  | zero =>
    intro s t _ h
    rw [pathLenB_zero] at h
    subst h
    omega
  | succ k ih =>
    intro s t hs h
    obtain ⟨u, hu, hp⟩ := pathLenB_succ.1 h
    obtain ⟨pp, qq, hp0, hadj, rfl⟩ := successorGrids_elim hu
    have hstep := (misplacedNB_step (g := g) hs.1 hp0 hadj).1
    have := ih (oneBlank_succ hs hu).1 hp
    omega

theorem fringe_witness {start goal : Grid} {st : SState}
    (hinv : AInv start goal st) :
    ∀ (n : Nat) (x : Grid), IsDist start x n →
      (∀ m ∈ st.closed, m.a ≠ x) →
      ∃ mm ∈ st.fringe, ∃ j k, mm.g = j ∧ IsDist start mm.a j ∧
        pathLenB k mm.a x = true ∧ j + k = n := by
  obtain ⟨_, _, _, hfrontier, hstart⟩ := hinv
  intro n
  induction n with
  | zero =>
    intro x hx hunc
    have hxs : x = start := by
      have := hx.1
      rw [pathLenB_zero] at this
      exact this.symm
    subst hxs
    rcases hstart with ⟨m, hm, hma⟩ | ⟨mm, hmm, hma, hmg⟩
    · exact absurd hma (hunc m hm)
    · exact ⟨mm, hmm, 0, 0, hmg, by rw [hma]; exact ⟨pathLenB_refl _,
        fun m _ => Nat.zero_le m⟩, by rw [hma]; exact pathLenB_refl _, rfl⟩
  | succ n ih =>
    intro x hx hunc
    obtain ⟨w, hw, hxw⟩ := pathLenB_unsnoc hx.1
    have hwdist : IsDist start w n := by
      refine ⟨hw, ?_⟩
      intro m hm
      have := hx.2 (m + 1) (pathLenB_snoc hm hxw)
      omega
    by_cases hwc : ∃ mw ∈ st.closed, mw.a = w
    · obtain ⟨mw, hmw, hmwa⟩ := hwc
      obtain ⟨mm, hmm, hmma, hmmg⟩ := hfrontier x mw n hmw
        (by rw [hmwa]; exact hxw) hunc (by rw [hmwa]; exact hwdist) hx
      refine ⟨mm, hmm, n + 1, 0, hmmg, ?_, ?_, rfl⟩
      · rw [hmma]
        exact hx
      · rw [hmma]
        exact pathLenB_refl x
    · have hwunc : ∀ m ∈ st.closed, m.a ≠ w := by
        intro m hm he
        exact hwc ⟨m, hm, he⟩
      obtain ⟨mm, hmm, j, k, hg, hjd, hpk, hjk⟩ := ih w hwdist hwunc
      exact ⟨mm, hmm, j, k + 1, hg, hjd, pathLenB_snoc hpk hxw, by omega⟩

theorem selected_g_optimal {start goal : Grid} {st : SState} {x : Node}
    {xs : List Node} (hinv : AInv start goal st) (hOneS : OneBlank start)
    (hfr : st.fringe = x :: xs) :
    IsDist start (selectCurrent x (x :: xs)).a
      (selectCurrent x (x :: xs)).g := by
  obtain ⟨ha1, ha2, hdisj, hfrontier, hstart⟩ := hinv
  set cur := selectCurrent x (x :: xs) with hc
  have hcurf : cur ∈ st.fringe := by
    rw [hfr, hc, selectCurrent_cons_self]
    exact selectCurrent_mem x xs
  obtain ⟨hone, hpath, hh, hf⟩ := ha1 cur (List.mem_append.2 (Or.inl hcurf))
  obtain ⟨d, hdist, hdle⟩ := isDist_exists hpath
  by_cases heq : cur.g = d
  · rw [heq]
    exact hdist
  · exfalso
    have hpar := pathLenB_same_parity hOneS hpath hdist.1
    have hd2 : d + 2 ≤ cur.g := by omega
    have hunc : ∀ m ∈ st.closed, m.a ≠ cur.a := by
      intro m hm he
      exact hdisj cur hcurf m hm he.symm
    obtain ⟨mm, hmm, j, k, hg, hjdist, hpk, hjk⟩ :=
      fringe_witness ⟨ha1, ha2, hdisj, hfrontier, hstart⟩ d cur.a hdist hunc
    obtain ⟨honem, _, hhm, hfm⟩ := ha1 mm (List.mem_append.2 (Or.inl hmm))
    have hmin : cur.f ≤ mm.f := by
      rw [hc, selectCurrent_cons_self]
      exact selectCurrent_min x xs mm (hfr ▸ hmm)
    have hlip : misplacedH mm.a goal ≤ misplacedH cur.a goal + k + 1 := by
      have h1 := misplacedH_le_NB_add_one (g := goal) honem
      have h2 := misplacedNB_path_le (g := goal) honem hpk
      have h3 := misplacedNB_le_misplacedH cur.a goal
      omega
    rw [hf, hh, hfm, hhm, hg] at hmin
    omega

theorem aInv_init {start goal : Grid} (hOneS : OneBlank start) :
    AInv start goal ⟨[initNode .misplaced start goal], [], 0⟩ := by
  unfold AInv
  refine ⟨?_, ?_, ?_, ?_, ?_⟩
  · intro n hn
    simp only [List.append_nil] at hn
    rw [List.mem_singleton] at hn
    subst hn
    exact ⟨hOneS, pathLenB_refl start, rfl, (Nat.zero_add _).symm⟩
  · intro n hn
    exact absurd hn (List.not_mem_nil n)
  · intro n _ m hm
    exact absurd hm (List.not_mem_nil m)
  · intro z w n hw
    exact absurd hw (List.not_mem_nil w)
  · exact Or.inr ⟨initNode .misplaced start goal, List.mem_singleton.2 rfl,
      rfl, rfl⟩

theorem aInv_step {start goal : Grid} {st : SState} {x : Node}
    {xs : List Node} (hinv : AInv start goal st) (hOneS : OneBlank start)
    (hfr : st.fringe = x :: xs)
    (hng : isGoal (selectCurrent x (x :: xs)).a goal = false) :
    AInv start goal
      (getSuccessors .misplaced goal st (selectCurrent x (x :: xs))).1 := by
  have hcdist := selected_g_optimal hinv hOneS hfr
  obtain ⟨ha1, ha2, hdisj, hfrontier, hstart⟩ := hinv
  set cur := selectCurrent x (x :: xs) with hc
  have hcurf : cur ∈ st.fringe := by
    rw [hfr, hc, selectCurrent_cons_self]
    exact selectCurrent_mem x xs
  obtain ⟨honec, hpathc, hhc, hfc⟩ := ha1 cur (List.mem_append.2 (Or.inl hcurf))
  have hdisj' : FringeClosedDisjoint
      (getSuccessors .misplaced goal st cur).1 :=
    disjoint_step _ _ _ _ hdisj
  rw [getSuccessors_eq] at hdisj' ⊢
  unfold AInv
  refine ⟨?_, ?_, hdisj', ?_, ?_⟩
  · intro n hn
    dsimp only at hn
    rcases List.mem_append.1 hn with hnf | hnc
    · obtain ⟨hn', _⟩ := List.mem_filter.1 hnf
      rcases List.mem_append.1 hn' with hno | hnp
      · exact ha1 n (List.mem_append.2 (Or.inl hno))
      · obtain ⟨c, hcm, _, rfl⟩ := mem_pushChildren hnp
        exact ⟨(oneBlank_succ honec hcm).1, pathLenB_snoc hpathc hcm, rfl, rfl⟩
    · rcases List.mem_append.1 hnc with hno | hncur
      · exact ha1 n (List.mem_append.2 (Or.inr hno))
      · rw [List.mem_singleton.1 hncur]
        exact ⟨honec, hpathc, hhc, hfc⟩
  · intro n hn
    dsimp only at hn
    rcases List.mem_append.1 hn with hno | hncur
    · exact ha2 n hno
    · rw [List.mem_singleton.1 hncur]
      exact ⟨hcdist, hng⟩
  · intro z w n hw hzw hzunc hwdist hzdist
    dsimp only at hw hzunc ⊢
    have hzuncOld : ∀ m ∈ st.closed, m.a ≠ z := fun m hm =>
      hzunc m (List.mem_append.2 (Or.inl hm))
    have hcurz : cur.a ≠ z :=
      hzunc cur (List.mem_append.2 (Or.inr (List.mem_singleton.2 rfl)))
    rcases List.mem_append.1 hw with hwo | hwcur
    · obtain ⟨mm, hmm, hmma, hmmg⟩ :=
        hfrontier z w n hwo hzw hzuncOld hwdist hzdist
      refine ⟨mm, ?_, hmma, hmmg⟩
      refine List.mem_filter.2 ⟨List.mem_append.2 (Or.inl hmm), ?_⟩
      simp only [hmma, Bool.not_eq_true']
      rw [beq_eq_false_iff_ne]
      exact fun e => hcurz e.symm
    · have hwc : w = cur := List.mem_singleton.1 hwcur
      subst hwc
      have hneq : n = cur.g := isDist_unique hwdist hcdist
      have hexp : isExplored (st.closed ++ [cur]) z = false :=
        isExplored_false_iff.2 hzunc
      refine ⟨mkChild .misplaced goal cur.g st.closed.length z, ?_, rfl, ?_⟩
      · refine List.mem_filter.2
          ⟨List.mem_append.2 (Or.inr (pushChildren_mem_of hzw hexp)), ?_⟩
        simp only [Bool.not_eq_true']
        rw [beq_eq_false_iff_ne]
        show z ≠ cur.a
        exact fun e => hcurz e.symm
      · show cur.g + 1 = n + 1
        omega
  · dsimp only
    rcases hstart with ⟨m, hm, hma⟩ | ⟨mm, hmm, hma, hmg⟩
    · exact Or.inl ⟨m, List.mem_append.2 (Or.inl hm), hma⟩
    · by_cases hsc : cur.a = start
      · exact Or.inl ⟨cur,
          List.mem_append.2 (Or.inr (List.mem_singleton.2 rfl)), hsc⟩
      · refine Or.inr ⟨mm, ?_, hma, hmg⟩
        refine List.mem_filter.2 ⟨List.mem_append.2 (Or.inl hmm), ?_⟩
        simp only [hma, Bool.not_eq_true']
        rw [beq_eq_false_iff_ne]
        exact fun e => hsc e.symm

theorem solveLoop_success_opt {start goal : Grid} (hOneS : OneBlank start)
    (hg9 : goal.length = 9) :
    ∀ (fuel : Nat) (st : SState), AInv start goal st → ParentsOK start st →
      ∀ {path : List Grid} {g0 e : Nat},
        solveLoop .misplaced goal fuel st = .success path g0 e →
        ∃ d, IsDist start goal d ∧ path.length = d + 1 := by
  intro fuel
  induction fuel with
  | zero =>
    intro st _ _ path g0 e h
    rw [solveLoop_zero] at h
    exact absurd h (fun he => Outcome.noConfusion he)
  | succ fuel ih =>
    intro st hinv hpar path g0 e h
    rcases st with ⟨fr, cl, g1⟩
    cases fr with
    | nil =>
      rw [solveLoop_nil] at h
      exact absurd h (fun he => Outcome.noConfusion he)
    | cons x xs =>
      rw [solveLoop_cons] at h
      have hfr : (⟨x :: xs, cl, g1⟩ : SState).fringe = x :: xs := rfl
      have hcdist := selected_g_optimal hinv hOneS hfr
      have hcurf : selectCurrent x (x :: xs) ∈ x :: xs := by
        rw [selectCurrent_cons_self]
        exact selectCurrent_mem x xs
      by_cases hg : isGoal (selectCurrent x (x :: xs)).a goal
      · rw [if_pos hg] at h
        obtain ⟨hpath, _, _⟩ : pathTo cl (cl.length + 1)
            (selectCurrent x (x :: xs)) = path ∧ g1 = g0 ∧ cl.length = e := by
          cases h
          exact ⟨rfl, rfl, rfl⟩
        subst hpath
        obtain ⟨ha1, _, _, _, _⟩ := hinv
        obtain ⟨honec, _, _, _⟩ := ha1 (selectCurrent x (x :: xs))
          (List.mem_append.2 (Or.inl hcurf))
        have hga : (selectCurrent x (x :: xs)).a = goal :=
          isGoal_eq honec.1 hg9 hg
        have hok : NodeOK start cl cl.length (selectCurrent x (x :: xs)) :=
          hpar.2 _ hcurf
        obtain ⟨_, _, hlen, _⟩ := pathTo_ok hpar.1 (cl.length + 1)
          (selectCurrent x (x :: xs)) cl.length (by omega) hok
        refine ⟨(selectCurrent x (x :: xs)).g, ?_, hlen⟩
        rw [← hga]
        exact hcdist
      · rw [if_neg hg] at h
        have hng : isGoal (selectCurrent x (x :: xs)).a goal = false :=
          Bool.eq_false_iff.2 hg
        exact ih _ (aInv_step hinv hOneS hfr hng)
          (parentsOK_step .misplaced goal hpar hcurf) h

/-- C1: every successful run of the search as shipped (the
`MISPLACED_TILES` build) returns a minimal-cost solution: no sequence
of single-tile slides transforming start into goal is shorter than the
returned path.  The blank-counting heuristic overestimates by at most
one slide, and all slide sequences between two fixed grids have the
same parity of length (the blank alternates checkerboard colours), so
the usual A* optimality argument survives the inadmissibility. -/
theorem C1_returned_path_minimal (s goal : Grid) (fuel : Nat)
    (path : List Grid) (g0 e n : Nat) (hvs : validGrid s = true)
    (hvg : validGrid goal = true)
    (hrun : runAStar .misplaced s goal fuel = .success path g0 e)
    (hn : pathLenB n s goal = true) : path.length ≤ n + 1 := by
  have hOneS := validGrid_oneBlank hvs
  have hg9 := (validGrid_counts hvg).1
  obtain ⟨d, hdist, hlen⟩ := solveLoop_success_opt hOneS hg9 fuel _
    (aInv_init hOneS) (parentsOK_init .misplaced s goal) hrun
  have := hdist.2 n hn
  omega

theorem C1_witness :
    ([[1, 2, 3, 4, 5, 6, 7, 0, 8], [1, 2, 3, 4, 5, 6, 7, 8, 0]] :
      List Grid).length ≤ 1 + 1 :=
  C1_returned_path_minimal [1, 2, 3, 4, 5, 6, 7, 0, 8]
    [1, 2, 3, 4, 5, 6, 7, 8, 0] 5
    [[1, 2, 3, 4, 5, 6, 7, 0, 8], [1, 2, 3, 4, 5, 6, 7, 8, 0]] 3 1 1
    (by decide) (by decide) (by decide) (by decide)

end AStarPuzzle
